import Mathlib

/-!
Verification of the control plane state importer (package `importer`).

The importer's collaborators (dynamic client, discovery client, REST mapper,
filesystem, spinner UI) are external; we model each of their fallible calls by
an oracle recorded in an environment structure, and translate the importer's
own control flow faithfully from the source.  Spinner/pterm output is not
modelled; everything that influences control flow or returned errors is.
-/

namespace Importer

/-- `schema.GroupKind`: group plus kind identity of a resource. -/
structure GroupKind where
  Group : String
  Kind : String
deriving DecidableEq

/-- The status of a single named condition on a resource
(`corev1.ConditionTrue`, `ConditionFalse`, `ConditionUnknown`). -/
inductive CondStatus where
  | condTrue
  | condFalse
  | condUnknown
deriving DecidableEq, BEq

/-- `xpv1.ConditionedStatus.GetCondition`: scan the condition list for the
first entry with the requested type; absent conditions read as Unknown. -/
def getCondition (cs : List (String × CondStatus)) (c : String) : CondStatus :=
  match cs with
  | [] => CondStatus.condUnknown
  | (t, s) :: rest => if t == c then s else getCondition rest c

/-- One listed resource as seen by a single poll of `waitForConditions`.
`statusError` models `paved.GetValueInto("status", ...)` failing with an
error that is not `IsNotFound` (a missing status reads as the empty
condition list via `withStatus _ []`). -/
inductive ResourceObs where
  | statusError (name : String)
  | withStatus (name : String) (conds : List (String × CondStatus))
deriving DecidableEq

/-- The outcome of one `List` call inside a poll: either the dynamic client
errors, or it returns the current resources of the kind. -/
inductive PollObs where
  | listError
  | listed (items : List ResourceObs)
deriving DecidableEq

/-- The per-poll unmet counter loop of `waitForConditions`: walk the listed
resources; a status read error aborts the whole poll (`none`); otherwise a
resource counts as unmet (once, via the `break`) when at least one requested
condition is not True. -/
def pollCount (conditions : List String) : List ResourceObs → Option Nat
  | [] => some 0
  | ResourceObs.statusError _ :: _ => none
  | ResourceObs.withStatus _ cs :: rest =>
    match pollCount conditions rest with
    | none => none
    | some n =>
      if conditions.any (fun c => getCondition cs c != CondStatus.condTrue) then
        some (n + 1)
      else
        some n

/-- One invocation of the poll closure passed to `wait.UntilWithContext`:
returns `true` exactly when it sets `success` and cancels the loop (zero
unmet resources); list errors, status read errors and unmet resources all
leave the loop running. -/
def pollOnce (conditions : List String) (obs : PollObs) : Bool :=
  match obs with
  | PollObs.listError => false
  | PollObs.listed items =>
    match pollCount conditions items with
    | none => false
    | some unmet => unmet == 0

/-- The polling loop: starting at poll index `k` with `fuel` ticks left
before the surrounding context is done, run polls until one succeeds or the
ticks are exhausted.  Returns the final value of the `success` flag. -/
def waitFrom (conditions : List String) (polls : Nat → PollObs) : Nat → Nat → Bool
  | _, 0 => false
  | k, fuel + 1 =>
    if pollOnce conditions (polls k) then true
    else waitFrom conditions polls (k + 1) fuel

/-- Oracle for one `waitForConditions` call: the REST mapping result, the
observation each poll would make, the number of polls the 10-minute timeout
admits, and `cancelAt = some c` when the caller's context is cancelled
before poll `c` runs. -/
structure WaitEnv where
  mapping : Except String Unit
  polls : Nat → PollObs
  maxPolls : Nat
  cancelAt : Option Nat

/-- Number of polls the loop can actually run: the timeout budget, cut short
by parent-context cancellation when that fires first. -/
def allowedPolls (we : WaitEnv) : Nat :=
  match we.cancelAt with
  | none => we.maxPolls
  | some c => min c we.maxPolls

/-- Errors `waitForConditions` can return. -/
inductive WaitErr where
  | mappingFailed (gk : GroupKind)
  | timeout (gk : GroupKind) (conditions : List String)
deriving DecidableEq

/-- `printConditions`: render a condition list for messages. -/
def printConditions (conditions : List String) : String :=
  match conditions with
  | [] => ""
  | [c] => c
  | [c1, c2] => c1 ++ " and " ++ c2
  | _ =>
    String.intercalate ", " conditions.dropLast ++ ", and " ++ conditions.getLastD ""

/-- The message of the timeout error built by
`errors.Errorf("timeout waiting for conditions %q to be satisfied for all %q", ...)`. -/
def waitErrMessage (gk : GroupKind) (conditions : List String) : String :=
  "timeout waiting for conditions \"" ++ printConditions conditions ++
    "\" to be satisfied for all \"" ++ gk.Kind ++ "\""

/-- `waitForConditions`: resolve the REST mapping, then poll inside the
timeout; if the loop ends without `success` having been set — whether the
timeout elapsed or the caller cancelled — return the timeout error. -/
def waitForConditions (we : WaitEnv) (gk : GroupKind) (conditions : List String) :
    Except WaitErr Unit :=
  match we.mapping with
  | Except.error _ => Except.error (WaitErr.mappingFailed gk)
  | Except.ok _ =>
    if waitFrom conditions we.polls 0 (allowedPolls we) then Except.ok ()
    else Except.error (WaitErr.timeout gk conditions)

/-! ## Archive extraction (`unarchive`) -/

/-- One `tar.Reader.Next` outcome together with the oracle for the store
writes it triggers: a directory entry (with the `Mkdir` result), a regular
file entry (with the `OpenFile` and `io.Copy` results), or a read error.
End of the modelled list is `io.EOF`. -/
inductive TarEntry where
  | dir (name : String) (mkdirOk : Bool)
  | file (name : String) (createOk : Bool) (copyOk : Bool)
  | readErr
deriving DecidableEq

/-- Errors `unarchive` can return; `cancelled` is `ctx.Err()`. -/
inductive UnarchiveErr where
  | cancelled
  | openFailed
  | gzipFailed
  | readFailed
  | mkdirFailed (name : String)
  | createFailed (name : String)
  | copyFailed (name : String)
deriving DecidableEq

/-- Oracle for one `unarchive` call: results of opening the archive and the
gzip reader, the tar entries in order, and `cancelAt = some c` when the
caller's context is done from just before entry index `c` onwards. -/
structure UnarchiveEnv where
  openOk : Bool
  gzipOk : Bool
  entries : List TarEntry
  cancelAt : Option Nat
deriving DecidableEq

/-- Whether the context is done when the loop is about to process entry
index `i`. -/
def cancelledBefore (cancelAt : Option Nat) (i : Nat) : Bool :=
  match cancelAt with
  | none => false
  | some c => c ≤ i

/-- The entry loop of `unarchive`: the cancellation signal is checked before
each `tr.Next`, directories are created, regular files opened and copied;
the first failure aborts with the corresponding wrapped error. -/
def unarchiveLoop (cancelAt : Option Nat) : Nat → List TarEntry → Except UnarchiveErr Unit
  | i, [] =>
    if cancelledBefore cancelAt i then Except.error UnarchiveErr.cancelled
    else Except.ok ()
  | i, TarEntry.readErr :: _ =>
    if cancelledBefore cancelAt i then Except.error UnarchiveErr.cancelled
    else Except.error UnarchiveErr.readFailed
  | i, TarEntry.dir n mkOk :: rest =>
    if cancelledBefore cancelAt i then Except.error UnarchiveErr.cancelled
    else if mkOk then unarchiveLoop cancelAt (i + 1) rest
    else Except.error (UnarchiveErr.mkdirFailed n)
  | i, TarEntry.file n cOk wOk :: rest =>
    if cancelledBefore cancelAt i then Except.error UnarchiveErr.cancelled
    else if cOk then
      if wOk then unarchiveLoop cancelAt (i + 1) rest
      else Except.error (UnarchiveErr.copyFailed n)
    else Except.error (UnarchiveErr.createFailed n)

/-- `unarchive`: open the archive, build the gzip reader, then run the entry
loop. -/
def unarchive (ue : UnarchiveEnv) : Except UnarchiveErr Unit :=
  if !ue.openOk then Except.error UnarchiveErr.openFailed
  else if !ue.gzipOk then Except.error UnarchiveErr.gzipFailed
  else unarchiveLoop ue.cancelAt 0 ue.entries

/-! ## Preflight checks -/

/-- `crossplane.CollectInfo` result: the target control plane's Crossplane
version and enabled feature flags. -/
structure CrossplaneInfo where
  Version : String
  FeatureFlags : List String
deriving DecidableEq

/-- The `crossplane` section of the export metadata. -/
structure CrossplaneMeta where
  Version : String
  FeatureFlags : List String
deriving DecidableEq

/-- `v1alpha1.ExportMeta`, as far as PreflightChecks reads it. -/
structure ExportMeta where
  Crossplane : CrossplaneMeta
deriving DecidableEq

/-- Entries of the elements of the `[]error` list PreflightChecks returns.
The first four are the early-return fatal errors; the last two are the
collected diagnostics. -/
inductive PreflightErr where
  | collectInfoFailed
  | unarchiveFailed (e : UnarchiveErr)
  | readMetaFailed
  | unmarshalFailed
  | versionMismatch (observed exported : String)
  | missingFeatureFlag (flag : String)
deriving DecidableEq

/-- Diagnostics (mismatch reports) as opposed to fatal read errors. -/
def isDiagnostic : PreflightErr → Bool
  | PreflightErr.versionMismatch _ _ => true
  | PreflightErr.missingFeatureFlag _ => true
  | _ => false

/-- The helper `contains(ss, s)`. -/
def contains : List String → String → Bool
  | [], _ => false
  | v :: rest, s => if v == s then true else contains rest s

/-- Root directory entry as returned by `fs.ReadDir("/")`. -/
structure DirEntry where
  name : String
  isDir : Bool
deriving DecidableEq

/-- Observable calls the importer makes on its collaborators, in order. -/
inductive Event where
  | unarchiveEv
  | importGroup (gr : String) (pause : Bool)
  | waitFor (gk : GroupKind) (conditions : List String)
  | mapperReset
  | modify (category : String)
deriving DecidableEq

/-- Oracle for everything outside the importer's own control flow.  The
same environment serves `PreflightChecks` and `Import`, mirroring that both
run against the same archive and live system within one run. -/
structure Env where
  unarchiveEnv : UnarchiveEnv
  collectInfo : Except String CrossplaneInfo
  readExportFile : Except String String
  parseMeta : String → Except String ExportMeta
  importResources : String → Bool → Except String Nat
  waitEnvs : GroupKind → List String → WaitEnv
  readDir : Except String (List DirEntry)
  modifyResources : String → Except String Nat

/-- `PreflightChecks`.  Input `fsM` is whether `im.fs` is already non-nil
(state materialized); the returned Bool is that flag after the call (the
memory filesystem is assigned before extraction is attempted, so it is set
even when extraction fails).  Also returns the trace of collaborator calls
and the `[]error` result. -/
def PreflightChecks (fsM : Bool) (env : Env) : Bool × List Event × List PreflightErr :=
  match env.collectInfo with
  | Except.error _ => (fsM, [], [PreflightErr.collectInfoFailed])
  | Except.ok observed =>
    let evs : List Event := if fsM then [] else [Event.unarchiveEv]
    let unRes : Except UnarchiveErr Unit :=
      if fsM then Except.ok () else unarchive env.unarchiveEnv
    match unRes with
    | Except.error e => (true, evs, [PreflightErr.unarchiveFailed e])
    | Except.ok _ =>
      match env.readExportFile with
      | Except.error _ => (true, evs, [PreflightErr.readMetaFailed])
      | Except.ok b =>
        match env.parseMeta b with
        | Except.error _ => (true, evs, [PreflightErr.unmarshalFailed])
        | Except.ok em =>
          let errs : List PreflightErr :=
            if observed.Version != em.Crossplane.Version then
              [PreflightErr.versionMismatch observed.Version em.Crossplane.Version]
            else []
          let errs := em.Crossplane.FeatureFlags.foldl
            (fun acc ff =>
              if contains observed.FeatureFlags ff then acc
              else acc ++ [PreflightErr.missingFeatureFlag ff]) errs
          (true, evs, errs)

/-! ## The Import phase controller -/

/-- Options of the import command. -/
structure Options where
  InputArchive : String
  UnpauseAfterImport : Bool

/-- The hard-coded base resource groups, in import order. -/
def baseResources : List String :=
  ["namespaces",
   "configmaps",
   "secrets",
   "controllerconfigs.pkg.crossplane.io",
   "deploymentruntimeconfigs.pkg.crossplane.io",
   "storeconfigs.secrets.crossplane.io",
   "compositionrevisions.apiextensions.crossplane.io",
   "compositions.apiextensions.crossplane.io",
   "compositeresourcedefinitions.apiextensions.crossplane.io",
   "providers.pkg.crossplane.io",
   "functions.pkg.crossplane.io",
   "configurations.pkg.crossplane.io"]

/-- `isBaseResource`. -/
def isBaseResource (gr : String) : Bool :=
  baseResources.any (fun k => k == gr)

/-- Errors `Import` can return (each wraps the failing collaborator call
with the group / kind / category it was made for, as the source does). -/
inductive ImpError where
  | unarchiveFailed (e : UnarchiveErr)
  | importGroupFailed (gr : String)
  | waitFailed (gk : GroupKind) (e : WaitErr)
  | listGroupsFailed
  | unexpectedFile (name : String)
  | modifyFailed (category : String)
deriving DecidableEq

/-- Sequencing of phases that both records collaborator-call events and
stops at the first error. -/
def wseq (a : List Event × Except ImpError α) (k : α → List Event × Except ImpError β) :
    List Event × Except ImpError β :=
  match a with
  | (evs, Except.error e) => (evs, Except.error e)
  | (evs, Except.ok x) =>
    match k x with
    | (evs2, r) => (evs ++ evs2, r)

/-- The base / remaining import loops: call
`r.ImportResources(ctx, gr, pause)` for each group, aborting on the first
failure, and collect the per-group counts. -/
def importGroupsLoop (imp : String → Bool → Except String Nat) (pause : Bool) :
    List String → List Event × Except ImpError (List (String × Nat))
  | [] => ([], Except.ok [])
  | gr :: rest =>
    match imp gr pause with
    | Except.error _ => ([Event.importGroup gr pause], Except.error (ImpError.importGroupFailed gr))
    | Except.ok n =>
      match importGroupsLoop imp pause rest with
      | (evs, r) => (Event.importGroup gr pause :: evs, r.map (fun cs => (gr, n) :: cs))

/-- A sequence of `waitForConditions` calls, aborting on the first failure. -/
def waitPhase (we : GroupKind → List String → WaitEnv) :
    List (GroupKind × List String) → List Event × Except ImpError Unit
  | [] => ([], Except.ok ())
  | (gk, cs) :: rest =>
    match waitForConditions (we gk cs) gk cs with
    | Except.error e => ([Event.waitFor gk cs], Except.error (ImpError.waitFailed gk e))
    | Except.ok _ =>
      match waitPhase we rest with
      | (evs, r) => (Event.waitFor gk cs :: evs, r)

/-- The remaining-resource loop over the store's root entries: skip
`export.yaml`, fail on any other regular file, skip base groups, and import
everything else with `pause = true`. -/
def importRemainingLoop (imp : String → Bool → Except String Nat) :
    List DirEntry → List Event × Except ImpError (List (String × Nat))
  | [] => ([], Except.ok [])
  | e :: rest =>
    if e.name == "export.yaml" then importRemainingLoop imp rest
    else if !e.isDir then ([], Except.error (ImpError.unexpectedFile e.name))
    else if isBaseResource e.name then importRemainingLoop imp rest
    else
      match imp e.name true with
      | Except.error _ =>
        ([Event.importGroup e.name true], Except.error (ImpError.importGroupFailed e.name))
      | Except.ok n =>
        match importRemainingLoop imp rest with
        | (evs, r) => (Event.importGroup e.name true :: evs, r.map (fun cs => (e.name, n) :: cs))

/-- The finalize phase: unpause composites, then claims; unpause managed
resources only when `UnpauseAfterImport` is set.  Each `modify c` event is
the `ModifyResources(ctx, c, remove "crossplane.io/paused")` call. -/
def finalizePhase (modify : String → Except String Nat) (opts : Options) :
    List Event × Except ImpError Unit :=
  match modify "composite" with
  | Except.error _ => ([Event.modify "composite"], Except.error (ImpError.modifyFailed "composite"))
  | Except.ok _ =>
    match modify "claim" with
    | Except.error _ =>
      ([Event.modify "composite", Event.modify "claim"],
       Except.error (ImpError.modifyFailed "claim"))
    | Except.ok _ =>
      if opts.UnpauseAfterImport then
        match modify "managed" with
        | Except.error _ =>
          ([Event.modify "composite", Event.modify "claim", Event.modify "managed"],
           Except.error (ImpError.modifyFailed "managed"))
        | Except.ok _ =>
          ([Event.modify "composite", Event.modify "claim", Event.modify "managed"],
           Except.ok ())
      else
        ([Event.modify "composite", Event.modify "claim"], Except.ok ())

/-- The XRD wait target. -/
def xrdGroupKind : GroupKind :=
  { Group := "apiextensions.crossplane.io", Kind := "CompositeResourceDefinition" }

/-- The package kinds waited on for Installed and Healthy. -/
def packageGroupKinds : List GroupKind :=
  [{ Group := "pkg.crossplane.io", Kind := "Provider" },
   { Group := "pkg.crossplane.io", Kind := "Function" },
   { Group := "pkg.crossplane.io", Kind := "Configuration" }]

/-- The package revision kinds waited on for Healthy (compatibility shim for
Crossplane < 1.14). -/
def revisionGroupKinds : List GroupKind :=
  [{ Group := "pkg.crossplane.io", Kind := "ProviderRevision" },
   { Group := "pkg.crossplane.io", Kind := "FunctionRevision" },
   { Group := "pkg.crossplane.io", Kind := "ConfigurationRevision" }]

/-- The extraction step of Import: skipped when `im.fs` is already
materialized; otherwise assign the memory filesystem and run `unarchive`. -/
def unarchivePhase (fsM : Bool) (env : Env) : List Event × Except ImpError Unit :=
  if fsM then ([], Except.ok ())
  else
    match unarchive env.unarchiveEnv with
    | Except.error e => ([Event.unarchiveEv], Except.error (ImpError.unarchiveFailed e))
    | Except.ok _ => ([Event.unarchiveEv], Except.ok ())

/-- The `fs.ReadDir("/")` step before the remaining-resource loop. -/
def readDirPhase (env : Env) : List Event × Except ImpError (List DirEntry) :=
  match env.readDir with
  | Except.error _ => ([], Except.error ImpError.listGroupsFailed)
  | Except.ok grs => ([], Except.ok grs)

/-- Import from the remaining-resource loop onwards (given the root
entries read from the store), ending in the finalize phase. -/
def remainingStep (env : Env) (opts : Options) (grs : List DirEntry) :
    List Event × Except ImpError Unit :=
  wseq (importRemainingLoop env.importResources grs) (fun _ =>
    finalizePhase env.modifyResources opts)

/-- Import from the `fs.ReadDir("/")` call onwards. -/
def listStep (env : Env) (opts : Options) : List Event × Except ImpError Unit :=
  wseq (readDirPhase env) (fun grs => remainingStep env opts grs)

/-- Import from the `resourceMapper.Reset()` call onwards. -/
def resetStep (env : Env) (opts : Options) : List Event × Except ImpError Unit :=
  wseq ([Event.mapperReset], Except.ok ()) (fun _ => listStep env opts)

/-- Import from the revision-kind compatibility waits onwards. -/
def revWaitStep (env : Env) (opts : Options) : List Event × Except ImpError Unit :=
  wseq (waitPhase env.waitEnvs (revisionGroupKinds.map (fun gk => (gk, ["Healthy"]))))
    (fun _ => resetStep env opts)

/-- Import from the package waits onwards. -/
def pkgWaitStep (env : Env) (opts : Options) : List Event × Except ImpError Unit :=
  wseq (waitPhase env.waitEnvs
      (packageGroupKinds.map (fun gk => (gk, ["Installed", "Healthy"]))))
    (fun _ => revWaitStep env opts)

/-- Import from the XRD wait onwards. -/
def xrdWaitStep (env : Env) (opts : Options) : List Event × Except ImpError Unit :=
  wseq (waitPhase env.waitEnvs [(xrdGroupKind, ["Established"])])
    (fun _ => pkgWaitStep env opts)

/-- Import from the base-resource loop onwards. -/
def baseImportStep (env : Env) (opts : Options) : List Event × Except ImpError Unit :=
  wseq (importGroupsLoop env.importResources false baseResources)
    (fun _ => xrdWaitStep env opts)

/-- `Import`.  Input and output `Bool` as in `PreflightChecks`: whether
`im.fs` is materialized (it always is on return, being assigned before
extraction is attempted).  The trace records every collaborator call; the
named steps spell out the source's strictly sequential phases. -/
def Import (fsM : Bool) (env : Env) (opts : Options) :
    Bool × List Event × Except ImpError Unit :=
  (true, wseq (unarchivePhase fsM env) (fun _ => baseImportStep env opts))

/-! ## Lemmas about the polling loop -/

theorem waitFrom_succeeds (conds : List String) (polls : Nat → PollObs) :
    ∀ (n start : Nat), (∀ j, j < n → pollOnce conds (polls (start + j)) = false) →
      pollOnce conds (polls (start + n)) = true →
      waitFrom conds polls start (n + 1) = true := by
  intro n
  induction n with
  | zero =>
    intro start _ hk
    simpa [waitFrom] using hk
  | succ n ih =>
    intro start hfalse hk
    have h0 : pollOnce conds (polls start) = false := by
      simpa using hfalse 0 (Nat.succ_pos n)
    show waitFrom conds polls start (n + 1 + 1) = true
    rw [waitFrom, h0]
    simp only [Bool.false_eq_true, if_false]
    apply ih (start + 1)
    · intro j hj
      have := hfalse (j + 1) (Nat.succ_lt_succ hj)
      simpa [Nat.add_assoc, Nat.add_comm 1 j] using this
    · have := hk
      simpa [Nat.add_assoc, Nat.add_comm 1 n] using this

theorem waitFrom_mono (conds : List String) (polls : Nat → PollObs) :
    ∀ (f f' s : Nat), f ≤ f' → waitFrom conds polls s f = true →
      waitFrom conds polls s f' = true := by
  intro f
  induction f with
  | zero =>
    intro f' s _ h
    simp [waitFrom] at h
  | succ f ih =>
    intro f' s hle h
    match f', hle with
    | f' + 1, hle =>
      rw [waitFrom] at h ⊢
      by_cases hp : pollOnce conds (polls s) = true
      · simp [hp]
      · rw [Bool.not_eq_true] at hp
        rw [hp] at h ⊢
        simp only [Bool.false_eq_true, if_false] at h ⊢
        exact ih f' (s + 1) (Nat.le_of_succ_le_succ hle) h

theorem waitFrom_all_false (conds : List String) (polls : Nat → PollObs) :
    ∀ (fuel start : Nat), (∀ j, j < fuel → pollOnce conds (polls (start + j)) = false) →
      waitFrom conds polls start fuel = false := by
  intro fuel
  induction fuel with
  | zero => intro start _; rfl
  | succ fuel ih =>
    intro start hfalse
    have h0 : pollOnce conds (polls start) = false := by
      simpa using hfalse 0 (Nat.succ_pos fuel)
    rw [waitFrom, h0]
    simp only [Bool.false_eq_true, if_false]
    apply ih (start + 1)
    intro j hj
    have := hfalse (j + 1) (Nat.succ_lt_succ hj)
    simpa [Nat.add_assoc, Nat.add_comm 1 j] using this

theorem pollCount_of_statusError (conds : List String) (nm : String) :
    ∀ items : List ResourceObs, ResourceObs.statusError nm ∈ items →
      pollCount conds items = none := by
  intro items
  induction items with
  | nil => intro h; cases h
  | cons r rest ih =>
    intro h
    cases r with
    | statusError n => rfl
    | withStatus n cs =>
      have : ResourceObs.statusError nm ∈ rest := by
        cases h with
        | tail _ h => exact h
      rw [pollCount, ih this]

theorem pollCount_all_met (conds : List String) :
    ∀ items : List ResourceObs,
      (∀ r ∈ items, ∃ nm cs, r = ResourceObs.withStatus nm cs ∧
        ∀ c ∈ conds, getCondition cs c = CondStatus.condTrue) →
      pollCount conds items = some 0 := by
  intro items
  induction items with
  | nil => intro _; rfl
  | cons r rest ih =>
    intro h
    obtain ⟨nm, cs, rfl, hmet⟩ := h r (List.mem_cons_self r rest)
    have hrest := ih (fun r hr => h r (List.mem_cons_of_mem _ hr))
    rw [pollCount, hrest]
    have : conds.any (fun c => getCondition cs c != CondStatus.condTrue) = false := by
      rw [List.any_eq_false]
      intro c hc
      rw [hmet c hc]
      decide
    rw [this]
    simp

theorem pollCount_le_length (conds : List String) :
    ∀ (items : List ResourceObs) (n : Nat), pollCount conds items = some n →
      n ≤ items.length := by
  intro items
  induction items with
  | nil =>
    intro n h
    simp only [pollCount, Option.some.injEq] at h
    omega
  | cons r rest ih =>
    intro n h
    cases r with
    | statusError _ => simp [pollCount] at h
    | withStatus _ cs =>
      rw [pollCount] at h
      cases hrest : pollCount conds rest with
      | none => rw [hrest] at h; simp at h
      | some m =>
        rw [hrest] at h
        have hm := ih m hrest
        by_cases hu : conds.any (fun c => getCondition cs c != CondStatus.condTrue) = true
        · rw [hu] at h
          simp only [if_true, Option.some.injEq] at h
          subst h
          simpa [List.length_cons] using Nat.succ_le_succ hm
        · rw [Bool.not_eq_true] at hu
          rw [hu] at h
          simp only [Bool.false_eq_true, if_false, Option.some.injEq] at h
          subst h
          exact Nat.le_succ_of_le hm

/-! ## Claim theorems about the condition waiter -/

/-- C3: for every call to waitForConditions, if on a poll the number of
unmet resources is zero — including the empty resource set and the case
where every listed resource already reports every requested condition as
true — the wait signals success on that poll, without waiting for the next
tick (poll `k` succeeding needs no fuel beyond poll `k` itself). -/
theorem waitForConditions_zero_unmet_immediate :
    (∀ (we : WaitEnv) (gk : GroupKind) (conds : List String) (k : Nat),
      we.mapping = Except.ok () →
      (∀ j, j < k → pollOnce conds (we.polls j) = false) →
      pollOnce conds (we.polls k) = true →
      k < allowedPolls we →
      waitForConditions we gk conds = Except.ok ()) ∧
    (∀ conds : List String, pollOnce conds (PollObs.listed []) = true) ∧
    (∀ (conds : List String) (items : List ResourceObs),
      (∀ r ∈ items, ∃ nm cs, r = ResourceObs.withStatus nm cs ∧
        ∀ c ∈ conds, getCondition cs c = CondStatus.condTrue) →
      pollOnce conds (PollObs.listed items) = true) := by
  refine ⟨?_, ?_, ?_⟩
  · intro we gk conds k hmap hprev hk hlt
    have h1 : waitFrom conds we.polls 0 (k + 1) = true :=
      waitFrom_succeeds conds we.polls k 0 (by simpa using hprev) (by simpa using hk)
    have h2 : waitFrom conds we.polls 0 (allowedPolls we) = true :=
      waitFrom_mono conds we.polls (k + 1) (allowedPolls we) 0 hlt h1
    unfold waitForConditions
    rw [hmap, h2]
    simp
  · intro conds; rfl
  · intro conds items h
    simp [pollOnce, pollCount_all_met conds items h]

/-- A provider resource with both package conditions met. -/
def sampleMetItems : List ResourceObs :=
  [ResourceObs.withStatus "provider-a"
    [("Installed", CondStatus.condTrue), ("Healthy", CondStatus.condTrue)]]

/-- A wait oracle whose first poll already sees every condition met. -/
def sampleWaitEnvMet : WaitEnv :=
  { mapping := Except.ok ()
    polls := fun _ => PollObs.listed sampleMetItems
    maxPolls := 120
    cancelAt := none }

/-- The Provider package kind. -/
def providerGroupKind : GroupKind := { Group := "pkg.crossplane.io", Kind := "Provider" }

/-- Witness for C3 at a concrete satisfied first poll. -/
theorem waitForConditions_zero_unmet_immediate_witness :
    waitForConditions sampleWaitEnvMet providerGroupKind ["Installed", "Healthy"] =
      Except.ok () :=
  waitForConditions_zero_unmet_immediate.1 sampleWaitEnvMet providerGroupKind
    ["Installed", "Healthy"] 0 rfl
    (fun j hj => absurd hj (Nat.not_lt_zero j))
    (by decide)
    (by decide)

/-- C4: a list error or a status read error during a poll never makes the
wait return early with success or failure: such a poll does not set the
success flag, and the loop simply moves on to the next tick, consuming
exactly one unit of the unchanged timeout budget — the same as any
unsatisfied poll. -/
theorem waitForConditions_transient_errors_retry :
    (∀ conds : List String, pollOnce conds PollObs.listError = false) ∧
    (∀ (conds : List String) (items : List ResourceObs) (nm : String),
      ResourceObs.statusError nm ∈ items →
      pollOnce conds (PollObs.listed items) = false) ∧
    (∀ (conds : List String) (polls : Nat → PollObs) (k fuel : Nat),
      pollOnce conds (polls k) = false →
      waitFrom conds polls k (fuel + 1) = waitFrom conds polls (k + 1) fuel) := by
  refine ⟨fun _ => rfl, ?_, ?_⟩
  · intro conds items nm h
    simp [pollOnce, pollCount_of_statusError conds nm items h]
  · intro conds polls k fuel h
    rw [waitFrom, h]
    simp

/-- A poll oracle that always fails to list. -/
def sampleErrPolls : Nat → PollObs := fun _ => PollObs.listError

/-- Witness for C4: an erroring poll hands over to the next tick. -/
theorem waitForConditions_transient_errors_retry_witness :
    waitFrom ["Healthy"] sampleErrPolls 0 3 = waitFrom ["Healthy"] sampleErrPolls 1 2 :=
  waitForConditions_transient_errors_retry.2.2 ["Healthy"] sampleErrPolls 0 2 rfl

/-- C5: when the timeout elapses with some listed resource still unmet on
every poll, waitForConditions returns the timeout error, whose message
names both the condition list and the kind. -/
theorem waitForConditions_timeout_error :
    ∀ (we : WaitEnv) (gk : GroupKind) (conds : List String),
      we.mapping = Except.ok () → we.cancelAt = none →
      (∀ k, k < we.maxPolls → pollOnce conds (we.polls k) = false) →
      waitForConditions we gk conds = Except.error (WaitErr.timeout gk conds) ∧
      ∃ pre mid post, waitErrMessage gk conds =
        pre ++ printConditions conds ++ mid ++ gk.Kind ++ post := by
  intro we gk conds hmap hcancel hall
  constructor
  · have hallowed : allowedPolls we = we.maxPolls := by rw [allowedPolls, hcancel]
    have hf : waitFrom conds we.polls 0 (allowedPolls we) = false := by
      rw [hallowed]
      exact waitFrom_all_false conds we.polls we.maxPolls 0 (by simpa using hall)
    unfold waitForConditions
    rw [hmap, hf]
    simp
  · exact ⟨"timeout waiting for conditions \"", "\" to be satisfied for all \"", "\"", rfl⟩

/-- A provider resource that is Installed but never Healthy. -/
def sampleUnmetItems : List ResourceObs :=
  [ResourceObs.withStatus "provider-b" [("Installed", CondStatus.condTrue)]]

/-- A wait oracle that lists an unmet resource on every poll until the
timeout. -/
def sampleWaitEnvUnmet : WaitEnv :=
  { mapping := Except.ok ()
    polls := fun _ => PollObs.listed sampleUnmetItems
    maxPolls := 3
    cancelAt := none }

/-- Witness for C5 at a concrete never-healthy resource. -/
theorem waitForConditions_timeout_error_witness :
    waitForConditions sampleWaitEnvUnmet providerGroupKind ["Installed", "Healthy"] =
      Except.error (WaitErr.timeout providerGroupKind ["Installed", "Healthy"]) ∧
    ∃ pre mid post, waitErrMessage providerGroupKind ["Installed", "Healthy"] =
      pre ++ printConditions ["Installed", "Healthy"] ++ mid ++
        providerGroupKind.Kind ++ post :=
  waitForConditions_timeout_error sampleWaitEnvUnmet providerGroupKind
    ["Installed", "Healthy"] rfl rfl (fun _ _ => rfl)

/-- C10: with an empty condition list every resource vacuously satisfies
all conditions, so the wait succeeds on the first poll that reads all
statuses, whatever the actual condition values; and each resource is
counted unmet at most once per poll, so the unmet count never exceeds the
total count. -/
theorem waitForConditions_empty_conditions_vacuous :
    (∀ items : List ResourceObs,
      (∀ r ∈ items, ∃ nm cs, r = ResourceObs.withStatus nm cs) →
      pollOnce [] (PollObs.listed items) = true) ∧
    (∀ (conds : List String) (items : List ResourceObs) (n : Nat),
      pollCount conds items = some n → n ≤ items.length) ∧
    (∀ (we : WaitEnv) (gk : GroupKind) (items : List ResourceObs),
      we.mapping = Except.ok () → we.polls 0 = PollObs.listed items →
      (∀ r ∈ items, ∃ nm cs, r = ResourceObs.withStatus nm cs) →
      0 < allowedPolls we →
      waitForConditions we gk [] = Except.ok ()) := by
  have hpoll : ∀ items : List ResourceObs,
      (∀ r ∈ items, ∃ nm cs, r = ResourceObs.withStatus nm cs) →
      pollOnce [] (PollObs.listed items) = true := by
    intro items h
    have hall : ∀ r ∈ items, ∃ nm cs, r = ResourceObs.withStatus nm cs ∧
        ∀ c ∈ ([] : List String), getCondition cs c = CondStatus.condTrue := by
      intro r hr
      obtain ⟨nm, cs, rfl⟩ := h r hr
      exact ⟨nm, cs, rfl, fun c hc => absurd hc (List.not_mem_nil c)⟩
    simp [pollOnce, pollCount_all_met [] items hall]
  refine ⟨hpoll, pollCount_le_length, ?_⟩
  · intro we gk items hmap hpolls h hlt
    have h0 : pollOnce [] (we.polls 0) = true := by
      rw [hpolls]
      exact hpoll items h
    have h1 : waitFrom [] we.polls 0 1 = true :=
      waitFrom_succeeds [] we.polls 0 0
        (fun j hj => absurd hj (Nat.not_lt_zero j)) h0
    have h2 : waitFrom [] we.polls 0 (allowedPolls we) = true :=
      waitFrom_mono [] we.polls 1 (allowedPolls we) 0 hlt h1
    unfold waitForConditions
    rw [hmap, h2]
    simp

/-- A widget resource whose only condition is not met. -/
def sampleAnyStatusItems : List ResourceObs :=
  [ResourceObs.withStatus "w1" [("Ready", CondStatus.condFalse)]]

/-- A wait oracle listing that widget on every poll. -/
def sampleWaitEnvAny : WaitEnv :=
  { mapping := Except.ok ()
    polls := fun _ => PollObs.listed sampleAnyStatusItems
    maxPolls := 5
    cancelAt := none }

/-- Witness for C10: the empty condition list succeeds immediately even
though the resource's own condition is false. -/
theorem waitForConditions_empty_conditions_vacuous_witness :
    waitForConditions sampleWaitEnvAny providerGroupKind [] = Except.ok () :=
  waitForConditions_empty_conditions_vacuous.2.2 sampleWaitEnvAny providerGroupKind
    sampleAnyStatusItems rfl rfl
    (by
      intro r hr
      simp only [sampleAnyStatusItems, List.mem_singleton] at hr
      exact ⟨"w1", [("Ready", CondStatus.condFalse)], hr⟩)
    (by decide)

/-- Version-mismatch diagnostics. -/
def isVersionDiag : PreflightErr → Bool
  | PreflightErr.versionMismatch _ _ => true
  | _ => false

/-- A target control plane observed with flag A only. -/
def sampleObservedAB : CrossplaneInfo := { Version := "1.14.0", FeatureFlags := ["A"] }

/-- Export metadata recorded with flags A and B and the same version. -/
def sampleMetaAB : ExportMeta :=
  { Crossplane := { Version := "1.14.0", FeatureFlags := ["A", "B"] } }

/-- An environment where every collaborator call succeeds, the export and
target versions agree, and the exported flags are A,B against target flag A. -/
def sampleEnvAB : Env :=
  { unarchiveEnv := { openOk := true, gzipOk := true, entries := [], cancelAt := none }
    collectInfo := Except.ok sampleObservedAB
    readExportFile := Except.ok "export-bytes"
    parseMeta := fun _ => Except.ok sampleMetaAB
    importResources := fun _ _ => Except.ok 1
    waitEnvs := fun _ _ =>
      { mapping := Except.ok (), polls := fun _ => PollObs.listed [], maxPolls := 1,
        cancelAt := none }
    readDir := Except.ok []
    modifyResources := fun _ => Except.ok 0 }

/-! ## Lemmas about PreflightChecks -/

theorem contains_eq_true_iff (s : String) :
    ∀ ss : List String, contains ss s = true ↔ s ∈ ss := by
  intro ss
  induction ss with
  | nil => simp [contains]
  | cons v rest ih =>
    rw [contains]
    by_cases h : v == s
    · rw [if_pos h]
      simp only [true_iff]
      have : v = s := by simpa [beq_iff_eq] using h
      exact this ▸ List.mem_cons_self v rest
    · rw [if_neg h]
      rw [ih]
      constructor
      · exact fun hm => List.mem_cons_of_mem v hm
      · intro hm
        cases hm with
        | head => exact absurd (by simp) h
        | tail _ hm => exact hm

theorem foldl_flags_eq (obs : List String) :
    ∀ (ffs : List String) (init : List PreflightErr),
      ffs.foldl
        (fun acc ff =>
          if contains obs ff then acc
          else acc ++ [PreflightErr.missingFeatureFlag ff]) init =
      init ++ (ffs.filter (fun ff => !(contains obs ff))).map
        PreflightErr.missingFeatureFlag := by
  intro ffs
  induction ffs with
  | nil => intro init; simp
  | cons ff rest ih =>
    intro init
    rw [List.foldl_cons]
    by_cases h : contains obs ff = true
    · rw [if_pos h]
      rw [ih init]
      congr 1
      rw [List.filter_cons]
      simp [h]
    · rw [Bool.not_eq_true] at h
      rw [h]
      simp only [Bool.false_eq_true, if_false]
      rw [ih (init ++ [PreflightErr.missingFeatureFlag ff])]
      rw [List.filter_cons]
      simp [h]

/-- Characterization of the diagnostic list on the readable path: one
version-mismatch entry when versions differ, then one entry per exported
feature flag not present on the target, in export order. -/
theorem PreflightChecks_result_eq (fsM : Bool) (env : Env) (observed : CrossplaneInfo)
    (b : String) (em : ExportMeta)
    (hinfo : env.collectInfo = Except.ok observed)
    (hun : fsM = true ∨ unarchive env.unarchiveEnv = Except.ok ())
    (hread : env.readExportFile = Except.ok b)
    (hparse : env.parseMeta b = Except.ok em) :
    (PreflightChecks fsM env).2.2 =
      (if observed.Version != em.Crossplane.Version then
        [PreflightErr.versionMismatch observed.Version em.Crossplane.Version]
      else []) ++
      (em.Crossplane.FeatureFlags.filter
        (fun ff => !(contains observed.FeatureFlags ff))).map
        PreflightErr.missingFeatureFlag := by
  unfold PreflightChecks
  rw [hinfo]
  have hur : (if fsM then Except.ok () else unarchive env.unarchiveEnv) =
      (Except.ok () : Except UnarchiveErr Unit) := by
    cases hun with
    | inl h => rw [h]; simp
    | inr h => cases fsM <;> simp [h]
  simp only [hur, hread, hparse]
  rw [foldl_flags_eq]

/-- C7: on the readable path PreflightChecks returns exactly one diagnostic
when the observed engine version differs from the exported one, exactly one
diagnostic per exported feature flag absent from the target, and the empty
list when versions agree and every exported flag is present; with exported
flags A,B and target flags A the result is exactly one diagnostic naming B. -/
theorem PreflightChecks_diagnostics (fsM : Bool) (env : Env) (observed : CrossplaneInfo)
    (b : String) (em : ExportMeta)
    (hinfo : env.collectInfo = Except.ok observed)
    (hun : fsM = true ∨ unarchive env.unarchiveEnv = Except.ok ())
    (hread : env.readExportFile = Except.ok b)
    (hparse : env.parseMeta b = Except.ok em) :
    (((PreflightChecks fsM env).2.2.filter isVersionDiag).length =
      if observed.Version = em.Crossplane.Version then 0 else 1) ∧
    (em.Crossplane.FeatureFlags.Nodup →
      ∀ ff : String,
        List.count (PreflightErr.missingFeatureFlag ff) (PreflightChecks fsM env).2.2 =
          if ff ∈ em.Crossplane.FeatureFlags ∧ contains observed.FeatureFlags ff = false
          then 1 else 0) ∧
    (observed.Version = em.Crossplane.Version →
      (∀ ff ∈ em.Crossplane.FeatureFlags, contains observed.FeatureFlags ff = true) →
      (PreflightChecks fsM env).2.2 = []) ∧
    (PreflightChecks false sampleEnvAB).2.2 = [PreflightErr.missingFeatureFlag "B"] := by
  rw [PreflightChecks_result_eq fsM env observed b em hinfo hun hread hparse]
  refine ⟨?_, ?_, ?_, ?_⟩
  · rw [List.filter_append, List.length_append]
    have hmap : ((em.Crossplane.FeatureFlags.filter
        (fun ff => !(contains observed.FeatureFlags ff))).map
          PreflightErr.missingFeatureFlag).filter isVersionDiag = [] := by
      rw [List.filter_map]
      have : (isVersionDiag ∘ PreflightErr.missingFeatureFlag) = fun _ => false := by
        funext x; rfl
      rw [this]
      simp
    rw [hmap]
    by_cases hv : observed.Version = em.Crossplane.Version
    · simp [hv]
    · have : (observed.Version != em.Crossplane.Version) = true := by
        simpa [bne_iff_ne] using hv
      rw [this, if_pos rfl, if_neg hv]
      rfl
  · intro hnodup ff
    rw [List.count_append]
    have h1 : List.count (PreflightErr.missingFeatureFlag ff)
        (if observed.Version != em.Crossplane.Version then
          [PreflightErr.versionMismatch observed.Version em.Crossplane.Version]
        else []) = 0 := by
      by_cases hv : (observed.Version != em.Crossplane.Version) = true
      · rw [hv]; simp [List.count_cons]
      · rw [Bool.not_eq_true] at hv; rw [hv]; simp
    rw [h1, Nat.zero_add]
    rw [List.count_map_of_injective _ PreflightErr.missingFeatureFlag
      (fun a b h => by injection h) ff]
    by_cases hin : ff ∈ em.Crossplane.FeatureFlags ∧
        contains observed.FeatureFlags ff = false
    · rw [if_pos hin]
      apply List.count_eq_one_of_mem (hnodup.filter _)
      rw [List.mem_filter]
      exact ⟨hin.1, by rw [hin.2]; rfl⟩
    · rw [if_neg hin]
      rw [List.count_eq_zero]
      rw [List.mem_filter]
      intro ⟨hmem, hflt⟩
      apply hin
      refine ⟨hmem, ?_⟩
      cases hc : contains observed.FeatureFlags ff
      · rfl
      · rw [hc] at hflt; simp at hflt
  · intro hv hall
    have h1 : (observed.Version != em.Crossplane.Version) = false := by
      simpa [bne_iff_ne] using hv
    rw [h1]
    simp only [Bool.false_eq_true, if_false, List.nil_append]
    have : em.Crossplane.FeatureFlags.filter
        (fun ff => !(contains observed.FeatureFlags ff)) = [] := by
      rw [List.filter_eq_nil_iff]
      intro ff hff
      rw [hall ff hff]
      simp
    rw [this]
    rfl
  · rfl

/-- Witness for C7: exported flags A,B against target flag A yield exactly
one diagnostic, naming B. -/
theorem PreflightChecks_diagnostics_witness :
    (PreflightChecks false sampleEnvAB).2.2 = [PreflightErr.missingFeatureFlag "B"] :=
  (PreflightChecks_diagnostics false sampleEnvAB sampleObservedAB "export-bytes"
    sampleMetaAB rfl (Or.inr rfl) rfl rfl).2.2.2

/-- An environment where the exported state is perfectly readable but the
target's Crossplane info cannot be collected. -/
def cexCollectEnv : Env :=
  { sampleEnvAB with collectInfo := Except.error "cannot get crossplane info" }

/-- C8 counterexample: with the archive extractable and the metadata record
readable and parseable, PreflightChecks still returns a single fatal
(non-diagnostic) error when the target's Crossplane info cannot be
collected — a case the claim's list of allowed fatal causes omits. -/
theorem PreflightChecks_collectinfo_fatal_cex :
    unarchive cexCollectEnv.unarchiveEnv = Except.ok () ∧
    cexCollectEnv.readExportFile = Except.ok "export-bytes" ∧
    cexCollectEnv.parseMeta "export-bytes" = Except.ok sampleMetaAB ∧
    (PreflightChecks false cexCollectEnv).2.2 = [PreflightErr.collectInfoFailed] ∧
    isDiagnostic PreflightErr.collectInfoFailed = false :=
  ⟨rfl, rfl, rfl, rfl, rfl⟩

/-- C8 (amended): PreflightChecks never returns a fatal error unless the
exported state cannot be read (archive not unarchivable, metadata not
readable or parseable) or the target's Crossplane info cannot be collected;
whenever all four succeed, every returned entry is a collected diagnostic,
not a short-circuiting fatal error. -/
theorem PreflightChecks_no_fatal_amended (fsM : Bool) (env : Env)
    (observed : CrossplaneInfo) (b : String) (em : ExportMeta)
    (hinfo : env.collectInfo = Except.ok observed)
    (hun : fsM = true ∨ unarchive env.unarchiveEnv = Except.ok ())
    (hread : env.readExportFile = Except.ok b)
    (hparse : env.parseMeta b = Except.ok em) :
    ((PreflightChecks fsM env).2.2).all isDiagnostic = true := by
  rw [PreflightChecks_result_eq fsM env observed b em hinfo hun hread hparse]
  rw [List.all_append, Bool.and_eq_true]
  constructor
  · by_cases hv : (observed.Version != em.Crossplane.Version) = true
    · rw [hv]; rfl
    · rw [Bool.not_eq_true] at hv; rw [hv]; rfl
  · rw [List.all_eq_true]
    intro e he
    obtain ⟨ff, _, rfl⟩ := List.mem_map.mp he
    rfl

/-- Witness for the amended C8 on a concrete readable environment. -/
theorem PreflightChecks_no_fatal_amended_witness :
    ((PreflightChecks false sampleEnvAB).2.2).all isDiagnostic = true :=
  PreflightChecks_no_fatal_amended false sampleEnvAB sampleObservedAB "export-bytes"
    sampleMetaAB rfl (Or.inr rfl) rfl rfl

/-! ## Cancellation behaviour (C6) -/

/-- An archive entry that is fully processed without error. -/
def entryOk : TarEntry → Bool
  | TarEntry.dir _ mkOk => mkOk
  | TarEntry.file _ cOk wOk => cOk && wOk
  | TarEntry.readErr => false

theorem unarchiveLoop_cancelled :
    ∀ (i : Nat) (es : List TarEntry) (st : Nat), i ≤ es.length →
      (∀ j, j < i → ∃ e, es.get? j = some e ∧ entryOk e = true) →
      unarchiveLoop (some (st + i)) st es = Except.error UnarchiveErr.cancelled := by
  intro i
  induction i with
  | zero =>
    intro es st _ _
    have hc : cancelledBefore (some (st + 0)) st = true := by
      simp [cancelledBefore]
    cases es with
    | nil => rw [unarchiveLoop, hc]; rfl
    | cons e rest =>
      cases e with
      | dir n mkOk => rw [unarchiveLoop, hc]; rfl
      | file n cOk wOk => rw [unarchiveLoop, hc]; rfl
      | readErr => rw [unarchiveLoop, hc]; rfl
  | succ i ih =>
    intro es st hlen hok
    have hc : cancelledBefore (some (st + (i + 1))) st = false := by
      simp [cancelledBefore]
    cases es with
    | nil => simp at hlen
    | cons e rest =>
      obtain ⟨e0, he0, hok0⟩ := hok 0 (Nat.succ_pos i)
      have he : e0 = e := by
        simp only [List.get?_cons_zero, Option.some.injEq] at he0
        exact he0.symm
      subst he
      have hrest : ∀ j, j < i → ∃ e, rest.get? j = some e ∧ entryOk e = true := by
        intro j hj
        have := hok (j + 1) (Nat.succ_lt_succ hj)
        simpa using this
      have hlen' : i ≤ rest.length := by
        simp only [List.length_cons] at hlen
        omega
      have harg : st + (i + 1) = (st + 1) + i := by omega
      cases e0 with
      | dir n mkOk =>
        have hmk : mkOk = true := by simpa [entryOk] using hok0
        subst hmk
        rw [unarchiveLoop, hc]
        simp only [Bool.false_eq_true, if_false, if_true]
        rw [harg]
        exact ih rest (st + 1) hlen' hrest
      | file n cOk wOk =>
        have hcw : cOk = true ∧ wOk = true := by
          simpa [entryOk, Bool.and_eq_true] using hok0
        obtain ⟨rfl, rfl⟩ := hcw
        rw [unarchiveLoop, hc]
        simp only [Bool.false_eq_true, if_false, if_true]
        rw [harg]
        exact ih rest (st + 1) hlen' hrest
      | readErr => simp [entryOk] at hok0

/-- A wait oracle cancelled by the caller after one poll, long before its
120-poll timeout budget is spent. -/
def cexCancelWaitEnv : WaitEnv :=
  { mapping := Except.ok ()
    polls := fun _ => PollObs.listed sampleUnmetItems
    maxPolls := 120
    cancelAt := some 1 }

/-- C6 counterexample: the caller's cancellation fires while the wait loop
is in flight (after 1 of 120 permitted polls), yet waitForConditions
returns the timeout error — the wait loop has no cancellation error at all,
so the step does not return a cancellation error as the claim states. -/
theorem wait_cancellation_returns_timeout_cex :
    cexCancelWaitEnv.cancelAt = some 1 ∧
    allowedPolls cexCancelWaitEnv = 1 ∧
    cexCancelWaitEnv.maxPolls = 120 ∧
    waitForConditions cexCancelWaitEnv providerGroupKind ["Installed", "Healthy"] =
      Except.error (WaitErr.timeout providerGroupKind ["Installed", "Healthy"]) :=
  ⟨rfl, rfl, rfl, rfl⟩

/-- C6 (amended): on cancellation the archive extraction loop returns
promptly with the cancellation error, as the claim states; the condition
wait loop also stops promptly, but — unable to distinguish the caller's
cancellation from its own deadline — returns the timeout error rather than
a cancellation error. -/
theorem cancellation_behaviour_amended :
    (∀ (ue : UnarchiveEnv) (c : Nat),
      ue.openOk = true → ue.gzipOk = true → ue.cancelAt = some c →
      c ≤ ue.entries.length →
      (∀ j, j < c → ∃ e, ue.entries.get? j = some e ∧ entryOk e = true) →
      unarchive ue = Except.error UnarchiveErr.cancelled) ∧
    (∀ (we : WaitEnv) (gk : GroupKind) (conds : List String) (c : Nat),
      we.mapping = Except.ok () → we.cancelAt = some c →
      (∀ k, k < allowedPolls we → pollOnce conds (we.polls k) = false) →
      waitForConditions we gk conds = Except.error (WaitErr.timeout gk conds)) := by
  constructor
  · intro ue c hopen hgzip hcancel hlen hok
    unfold unarchive
    rw [hopen, hgzip, hcancel]
    simp only [Bool.not_true, Bool.false_eq_true, if_false]
    have := unarchiveLoop_cancelled c ue.entries 0 hlen hok
    simpa using this
  · intro we gk conds c hmap _ hall
    have hf : waitFrom conds we.polls 0 (allowedPolls we) = false :=
      waitFrom_all_false conds we.polls (allowedPolls we) 0 (by simpa using hall)
    unfold waitForConditions
    rw [hmap, hf]
    simp

/-- An extraction run cancelled while its second entry is in flight. -/
def cexCancelUnEnv : UnarchiveEnv :=
  { openOk := true
    gzipOk := true
    entries := [TarEntry.dir "namespaces" true, TarEntry.file "namespaces/ns1.yaml" true true]
    cancelAt := some 1 }

/-- Witness for the amended C6: a concrete cancelled extraction returns the
cancellation error. -/
theorem cancellation_behaviour_amended_witness :
    unarchive cexCancelUnEnv = Except.error UnarchiveErr.cancelled :=
  cancellation_behaviour_amended.1 cexCancelUnEnv 1 rfl rfl rfl (by decide)
    (by
      intro j hj
      have hj0 : j = 0 := by omega
      subst hj0
      exact ⟨TarEntry.dir "namespaces" true, rfl, rfl⟩)

/-! ## Lemmas about the Import trace -/

/-- The full sequence of condition waits Import performs, in order. -/
def allWaitSpecs : List (GroupKind × List String) :=
  [(xrdGroupKind, ["Established"])] ++
    packageGroupKinds.map (fun gk => (gk, ["Installed", "Healthy"])) ++
    revisionGroupKinds.map (fun gk => (gk, ["Healthy"]))

/-- The remaining-group import events determined by the store's root
entries: everything except the metadata record and the base set. -/
def remainingEvents (grs : List DirEntry) : List Event :=
  (grs.filter (fun d => !(d.name == "export.yaml") && !(isBaseResource d.name))).map
    (fun d => Event.importGroup d.name true)

/-- The finalize-phase events of a completed run. -/
def finalizeEvents (opts : Options) : List Event :=
  [Event.modify "composite", Event.modify "claim"] ++
    (if opts.UnpauseAfterImport then [Event.modify "managed"] else [])

theorem wseq_ok {α β : Type} (a : List Event × Except ImpError α)
    (k : α → List Event × Except ImpError β) (evs : List Event) (b : β)
    (h : wseq a k = (evs, Except.ok b)) :
    ∃ evs1 x, a = (evs1, Except.ok x) ∧ (k x).2 = Except.ok b ∧
      evs = evs1 ++ (k x).1 := by
  obtain ⟨evs1, r1⟩ := a
  cases r1 with
  | error e => simp [wseq] at h
  | ok x =>
    have hk : wseq (evs1, Except.ok x) k = (evs1 ++ (k x).1, (k x).2) := rfl
    rw [hk] at h
    have h1 := congrArg Prod.fst h
    have h2 := congrArg Prod.snd h
    simp only at h1 h2
    exact ⟨evs1, x, rfl, h2, h1.symm⟩

theorem wseq_fst {α β : Type} (a : List Event × Except ImpError α)
    (k : α → List Event × Except ImpError β) :
    (wseq a k).1 = a.1 ∨
      ∃ x, a.2 = Except.ok x ∧ (wseq a k).1 = a.1 ++ (k x).1 := by
  obtain ⟨evs1, r1⟩ := a
  cases r1 with
  | error e => exact Or.inl rfl
  | ok x => exact Or.inr ⟨x, rfl, rfl⟩

theorem unarchivePhase_fst (fsM : Bool) (env : Env) :
    (unarchivePhase fsM env).1 = if fsM then [] else [Event.unarchiveEv] := by
  cases fsM with
  | true => rfl
  | false =>
    rw [unarchivePhase]
    simp only [Bool.false_eq_true, if_false]
    cases unarchive env.unarchiveEnv <;> rfl

theorem readDirPhase_fst (env : Env) : (readDirPhase env).1 = [] := by
  rw [readDirPhase]
  cases env.readDir <;> rfl

theorem readDirPhase_ok (env : Env) (grs : List DirEntry)
    (h : (readDirPhase env).2 = Except.ok grs) : env.readDir = Except.ok grs := by
  rw [readDirPhase] at h
  cases hrd : env.readDir with
  | error e => rw [hrd] at h; simp at h
  | ok grs2 =>
    rw [hrd] at h
    simp only [Except.ok.injEq] at h
    rw [h]

theorem importGroupsLoop_events (imp : String → Bool → Except String Nat) (pause : Bool) :
    ∀ grs, ∀ e ∈ (importGroupsLoop imp pause grs).1, ∃ gr, e = Event.importGroup gr pause := by
  intro grs
  induction grs with
  | nil => intro e he; simp [importGroupsLoop] at he
  | cons gr rest ih =>
    intro e he
    rw [importGroupsLoop] at he
    cases himp : imp gr pause with
    | error err =>
      rw [himp] at he
      simp only [List.mem_singleton] at he
      exact ⟨gr, he⟩
    | ok n =>
      rw [himp] at he
      simp only [List.mem_cons] at he
      cases he with
      | inl he => exact ⟨gr, he⟩
      | inr he => exact ih e he

theorem importGroupsLoop_ok (imp : String → Bool → Except String Nat) (pause : Bool) :
    ∀ grs evs cs, importGroupsLoop imp pause grs = (evs, Except.ok cs) →
      evs = grs.map (fun g => Event.importGroup g pause) := by
  intro grs
  induction grs with
  | nil =>
    intro evs cs h
    rw [importGroupsLoop, Prod.mk.injEq] at h
    simp [h.1.symm]
  | cons gr rest ih =>
    intro evs cs h
    rw [importGroupsLoop] at h
    cases himp : imp gr pause with
    | error err =>
      rw [himp, Prod.mk.injEq] at h
      exact absurd h.2 (by simp)
    | ok n =>
      rw [himp] at h
      cases hrec : importGroupsLoop imp pause rest with
      | mk evs2 r2 =>
        rw [hrec] at h
        replace h : (Event.importGroup gr pause :: evs2,
            Except.map (fun cs => (gr, n) :: cs) r2) = (evs, Except.ok cs) := h
        cases r2 with
        | error err =>
          rw [Prod.mk.injEq] at h
          exact absurd h.2 (by simp [Except.map])
        | ok cs2 =>
          rw [Prod.mk.injEq] at h
          rw [List.map_cons, ← h.1]
          congr 1
          exact ih evs2 cs2 hrec

theorem waitPhase_events (we : GroupKind → List String → WaitEnv) :
    ∀ specs, ∀ e ∈ (waitPhase we specs).1, ∃ gk cs, e = Event.waitFor gk cs := by
  intro specs
  induction specs with
  | nil => intro e he; simp [waitPhase] at he
  | cons p rest ih =>
    obtain ⟨gk, cs⟩ := p
    intro e he
    rw [waitPhase] at he
    cases hw : waitForConditions (we gk cs) gk cs with
    | error err =>
      rw [hw] at he
      simp only [List.mem_singleton] at he
      exact ⟨gk, cs, he⟩
    | ok u =>
      rw [hw] at he
      simp only [List.mem_cons] at he
      cases he with
      | inl he => exact ⟨gk, cs, he⟩
      | inr he => exact ih e he

theorem waitPhase_ok (we : GroupKind → List String → WaitEnv) :
    ∀ specs evs, waitPhase we specs = (evs, Except.ok ()) →
      evs = specs.map (fun p => Event.waitFor p.1 p.2) := by
  intro specs
  induction specs with
  | nil =>
    intro evs h
    rw [waitPhase, Prod.mk.injEq] at h
    simp [h.1.symm]
  | cons p rest ih =>
    obtain ⟨gk, cs⟩ := p
    intro evs h
    rw [waitPhase] at h
    cases hw : waitForConditions (we gk cs) gk cs with
    | error err =>
      rw [hw, Prod.mk.injEq] at h
      exact absurd h.2 (by simp)
    | ok u =>
      rw [hw] at h
      cases hrec : waitPhase we rest with
      | mk evs2 r2 =>
        rw [hrec] at h
        replace h : (Event.waitFor gk cs :: evs2, r2) = (evs, Except.ok ()) := h
        rw [Prod.mk.injEq] at h
        rw [List.map_cons, ← h.1]
        congr 1
        exact ih evs2 (by rw [hrec, h.2])

theorem importRemainingLoop_events (imp : String → Bool → Except String Nat) :
    ∀ grs, ∀ e ∈ (importRemainingLoop imp grs).1, ∃ gr, e = Event.importGroup gr true := by
  intro grs
  induction grs with
  | nil => intro e he; simp [importRemainingLoop] at he
  | cons d rest ih =>
    intro e he
    rw [importRemainingLoop] at he
    by_cases h1 : (d.name == "export.yaml") = true
    · rw [if_pos h1] at he
      exact ih e he
    · rw [if_neg h1] at he
      by_cases h2 : (!d.isDir) = true
      · rw [if_pos h2] at he
        simp at he
      · rw [if_neg h2] at he
        by_cases h3 : isBaseResource d.name = true
        · rw [if_pos h3] at he
          exact ih e he
        · rw [if_neg h3] at he
          cases himp : imp d.name true with
          | error err =>
            rw [himp] at he
            simp only [List.mem_singleton] at he
            exact ⟨d.name, he⟩
          | ok n =>
            rw [himp] at he
            simp only [List.mem_cons] at he
            cases he with
            | inl he => exact ⟨d.name, he⟩
            | inr he => exact ih e he

theorem importRemainingLoop_ok (imp : String → Bool → Except String Nat) :
    ∀ grs evs cs, importRemainingLoop imp grs = (evs, Except.ok cs) →
      evs = remainingEvents grs ∧
        ∀ d ∈ grs, d.name ≠ "export.yaml" → d.isDir = true := by
  intro grs
  induction grs with
  | nil =>
    intro evs cs h
    rw [importRemainingLoop, Prod.mk.injEq] at h
    refine ⟨by simp [remainingEvents, h.1.symm], by simp⟩
  | cons d rest ih =>
    intro evs cs h
    rw [importRemainingLoop] at h
    by_cases h1 : (d.name == "export.yaml") = true
    · rw [if_pos h1] at h
      obtain ⟨hevs, hdirs⟩ := ih evs cs h
      refine ⟨?_, ?_⟩
      · rw [hevs, remainingEvents, remainingEvents, List.filter_cons]
        simp [h1]
      · intro d2 hd2 hname
        cases hd2 with
        | head => exact absurd (by simpa [beq_iff_eq] using h1) hname
        | tail _ hd2 => exact hdirs d2 hd2 hname
    · rw [if_neg h1] at h
      by_cases h2 : (!d.isDir) = true
      · rw [if_pos h2, Prod.mk.injEq] at h
        exact absurd h.2 (by simp)
      · rw [if_neg h2] at h
        have hdir : d.isDir = true := by
          cases hd : d.isDir
          · rw [hd] at h2; simp at h2
          · rfl
        by_cases h3 : isBaseResource d.name = true
        · rw [if_pos h3] at h
          obtain ⟨hevs, hdirs⟩ := ih evs cs h
          refine ⟨?_, ?_⟩
          · rw [hevs, remainingEvents, remainingEvents, List.filter_cons]
            simp [h3]
          · intro d2 hd2 _
            cases hd2 with
            | head => exact hdir
            | tail _ hd2 => exact hdirs d2 hd2 (by assumption)
        · rw [if_neg h3] at h
          cases himp : imp d.name true with
          | error err =>
            rw [himp, Prod.mk.injEq] at h
            exact absurd h.2 (by simp)
          | ok n =>
            rw [himp] at h
            cases hrec : importRemainingLoop imp rest with
            | mk evs2 r2 =>
              rw [hrec] at h
              replace h : (Event.importGroup d.name true :: evs2,
                  Except.map (fun cs => (d.name, n) :: cs) r2) = (evs, Except.ok cs) := h
              cases r2 with
              | error err =>
                rw [Prod.mk.injEq] at h
                exact absurd h.2 (by simp [Except.map])
              | ok cs2 =>
                rw [Prod.mk.injEq] at h
                obtain ⟨hevs, hdirs⟩ := ih evs2 cs2 hrec
                refine ⟨?_, ?_⟩
                · rw [← h.1, remainingEvents, List.filter_cons]
                  have hkeep : (!(d.name == "export.yaml") &&
                      !(isBaseResource d.name)) = true := by
                    simp [h1, h3]
                  rw [hkeep]
                  simp only [if_true, List.map_cons]
                  rw [hevs, remainingEvents]
                · intro d2 hd2 hname
                  cases hd2 with
                  | head => exact hdir
                  | tail _ hd2 => exact hdirs d2 hd2 hname

theorem finalizePhase_events (m : String → Except String Nat) (opts : Options) :
    ∀ e ∈ (finalizePhase m opts).1, ∃ c, e = Event.modify c := by
  intro e he
  rw [finalizePhase] at he
  cases hc : m "composite" with
  | error e1 =>
    rw [hc] at he
    simp only [List.mem_singleton] at he
    exact ⟨"composite", he⟩
  | ok n1 =>
    rw [hc] at he
    cases hcl : m "claim" with
    | error e2 =>
      rw [hcl] at he
      simp only [List.mem_cons, List.mem_singleton, List.not_mem_nil, or_false] at he
      cases he with
      | inl he => exact ⟨"composite", he⟩
      | inr he => exact ⟨"claim", he⟩
    | ok n2 =>
      rw [hcl] at he
      by_cases hopt : opts.UnpauseAfterImport = true
      · rw [if_pos hopt] at he
        cases hm : m "managed" with
        | error e3 =>
          rw [hm] at he
          simp only [List.mem_cons, List.not_mem_nil, or_false] at he
          rcases he with he | he | he
          · exact ⟨"composite", he⟩
          · exact ⟨"claim", he⟩
          · exact ⟨"managed", he⟩
        | ok n3 =>
          rw [hm] at he
          simp only [List.mem_cons, List.not_mem_nil, or_false] at he
          rcases he with he | he | he
          · exact ⟨"composite", he⟩
          · exact ⟨"claim", he⟩
          · exact ⟨"managed", he⟩
      · rw [if_neg hopt] at he
        simp only [List.mem_cons, List.not_mem_nil, or_false] at he
        cases he with
        | inl he => exact ⟨"composite", he⟩
        | inr he => exact ⟨"claim", he⟩

theorem finalizePhase_ok (m : String → Except String Nat) (opts : Options)
    (evs : List Event) (h : finalizePhase m opts = (evs, Except.ok ())) :
    evs = finalizeEvents opts := by
  rw [finalizePhase] at h
  cases hc : m "composite" with
  | error e1 =>
    rw [hc, Prod.mk.injEq] at h
    exact absurd h.2 (by simp)
  | ok n1 =>
    rw [hc] at h
    cases hcl : m "claim" with
    | error e2 =>
      rw [hcl, Prod.mk.injEq] at h
      exact absurd h.2 (by simp)
    | ok n2 =>
      rw [hcl] at h
      by_cases hopt : opts.UnpauseAfterImport = true
      · rw [if_pos hopt] at h
        cases hm : m "managed" with
        | error e3 =>
          rw [hm, Prod.mk.injEq] at h
          exact absurd h.2 (by simp)
        | ok n3 =>
          rw [hm, Prod.mk.injEq] at h
          rw [← h.1, finalizeEvents, if_pos hopt]
          rfl
      · rw [if_neg hopt] at h
        rw [Prod.mk.injEq] at h
        rw [← h.1, finalizeEvents, if_neg hopt]
        rfl

theorem finalizePhase_shape (m : String → Except String Nat) (opts : Options) :
    ∀ evs r, finalizePhase m opts = (evs, r) →
      evs = [Event.modify "composite"] ∨
      evs = [Event.modify "composite", Event.modify "claim"] ∨
      (evs = [Event.modify "composite", Event.modify "claim", Event.modify "managed"] ∧
        opts.UnpauseAfterImport = true) := by
  intro evs r h
  rw [finalizePhase] at h
  cases hc : m "composite" with
  | error e1 =>
    rw [hc, Prod.mk.injEq] at h
    exact Or.inl h.1.symm
  | ok n1 =>
    rw [hc] at h
    cases hcl : m "claim" with
    | error e2 =>
      rw [hcl, Prod.mk.injEq] at h
      exact Or.inr (Or.inl h.1.symm)
    | ok n2 =>
      rw [hcl] at h
      by_cases hopt : opts.UnpauseAfterImport = true
      · rw [if_pos hopt] at h
        cases hm : m "managed" with
        | error e3 =>
          rw [hm, Prod.mk.injEq] at h
          exact Or.inr (Or.inr ⟨h.1.symm, hopt⟩)
        | ok n3 =>
          rw [hm, Prod.mk.injEq] at h
          exact Or.inr (Or.inr ⟨h.1.symm, hopt⟩)
      · rw [if_neg hopt] at h
        rw [Prod.mk.injEq] at h
        exact Or.inr (Or.inl h.1.symm)

theorem wseq_snd_ok {α β : Type} (a : List Event × Except ImpError α)
    (k : α → List Event × Except ImpError β) (b : β)
    (h : (wseq a k).2 = Except.ok b) :
    ∃ x, a.2 = Except.ok x ∧ (k x).2 = Except.ok b ∧
      (wseq a k).1 = a.1 ++ (k x).1 := by
  obtain ⟨evs1, r1⟩ := a
  cases r1 with
  | error e => simp [wseq] at h
  | ok x => exact ⟨x, rfl, h, rfl⟩

theorem remainingStep_decomp (env : Env) (opts : Options) (grs : List DirEntry) :
    ∃ pre F, (remainingStep env opts grs).1 = pre ++ F ∧
      (∀ c, Event.modify c ∉ pre) ∧ Event.unarchiveEv ∉ pre ∧
      (F = [] ∨ F = (finalizePhase env.modifyResources opts).1) := by
  rw [remainingStep]
  have hnomod : ∀ c, Event.modify c ∉ (importRemainingLoop env.importResources grs).1 := by
    intro c hc
    obtain ⟨gr, hgr⟩ := importRemainingLoop_events _ _ _ hc
    exact absurd hgr (by simp)
  have hnoun : Event.unarchiveEv ∉ (importRemainingLoop env.importResources grs).1 := by
    intro hc
    obtain ⟨gr, hgr⟩ := importRemainingLoop_events _ _ _ hc
    exact absurd hgr (by simp)
  rcases wseq_fst (importRemainingLoop env.importResources grs)
      (fun _ => finalizePhase env.modifyResources opts) with hcase | ⟨x, _, hcase⟩
  · exact ⟨(importRemainingLoop env.importResources grs).1, [], by simp [hcase],
      hnomod, hnoun, Or.inl rfl⟩
  · exact ⟨(importRemainingLoop env.importResources grs).1,
      (finalizePhase env.modifyResources opts).1, hcase, hnomod, hnoun, Or.inr rfl⟩

theorem listStep_decomp (env : Env) (opts : Options) :
    ∃ pre F, (listStep env opts).1 = pre ++ F ∧
      (∀ c, Event.modify c ∉ pre) ∧ Event.unarchiveEv ∉ pre ∧
      (F = [] ∨ F = (finalizePhase env.modifyResources opts).1) := by
  rw [listStep]
  rcases wseq_fst (readDirPhase env) (fun grs => remainingStep env opts grs) with
    hcase | ⟨grs, _, hcase⟩
  · exact ⟨[], [], by simp [hcase, readDirPhase_fst], by simp, by simp, Or.inl rfl⟩
  · obtain ⟨pre, F, htr, hpre, hpreu, hF⟩ := remainingStep_decomp env opts grs
    refine ⟨pre, F, ?_, hpre, hpreu, hF⟩
    rw [hcase, readDirPhase_fst]
    simpa using htr

theorem resetStep_decomp (env : Env) (opts : Options) :
    ∃ pre F, (resetStep env opts).1 = pre ++ F ∧
      (∀ c, Event.modify c ∉ pre) ∧ Event.unarchiveEv ∉ pre ∧
      (F = [] ∨ F = (finalizePhase env.modifyResources opts).1) := by
  rw [resetStep]
  rcases wseq_fst ([Event.mapperReset], Except.ok ()) (fun _ => listStep env opts) with
    hcase | ⟨x, _, hcase⟩
  · exact ⟨[Event.mapperReset], [], by simp [hcase], by simp, by simp, Or.inl rfl⟩
  · obtain ⟨pre, F, htr, hpre, hpreu, hF⟩ := listStep_decomp env opts
    refine ⟨Event.mapperReset :: pre, F, ?_, ?_, ?_, hF⟩
    · rw [hcase]
      have : ((fun _ => listStep env opts) x).1 = pre ++ F := htr
      rw [this]
      rfl
    · intro c hc
      cases hc with
      | tail _ hc => exact hpre c hc
    · intro hc
      cases hc with
      | tail _ hc => exact hpreu hc

theorem waitStep_decomp_aux (env : Env) (opts : Options)
    (specs : List (GroupKind × List String))
    (next : Unit → List Event × Except ImpError Unit)
    (hnext : ∃ pre F, (next ()).1 = pre ++ F ∧
      (∀ c, Event.modify c ∉ pre) ∧ Event.unarchiveEv ∉ pre ∧
      (F = [] ∨ F = (finalizePhase env.modifyResources opts).1)) :
    ∃ pre F, (wseq (waitPhase env.waitEnvs specs) next).1 = pre ++ F ∧
      (∀ c, Event.modify c ∉ pre) ∧ Event.unarchiveEv ∉ pre ∧
      (F = [] ∨ F = (finalizePhase env.modifyResources opts).1) := by
  have hnomod : ∀ c, Event.modify c ∉ (waitPhase env.waitEnvs specs).1 := by
    intro c hc
    obtain ⟨gk, cs, hgk⟩ := waitPhase_events _ _ _ hc
    exact absurd hgk (by simp)
  have hnoun : Event.unarchiveEv ∉ (waitPhase env.waitEnvs specs).1 := by
    intro hc
    obtain ⟨gk, cs, hgk⟩ := waitPhase_events _ _ _ hc
    exact absurd hgk (by simp)
  rcases wseq_fst (waitPhase env.waitEnvs specs) next with hcase | ⟨x, _, hcase⟩
  · exact ⟨(waitPhase env.waitEnvs specs).1, [], by simp [hcase], hnomod, hnoun, Or.inl rfl⟩
  · obtain ⟨pre, F, htr, hpre, hpreu, hF⟩ := hnext
    refine ⟨(waitPhase env.waitEnvs specs).1 ++ pre, F, ?_, ?_, ?_, hF⟩
    · rw [hcase]
      have : (next x).1 = pre ++ F := htr
      rw [this, List.append_assoc]
    · intro c hc
      rcases List.mem_append.mp hc with hc | hc
      · exact hnomod c hc
      · exact hpre c hc
    · intro hc
      rcases List.mem_append.mp hc with hc | hc
      · exact hnoun hc
      · exact hpreu hc

theorem revWaitStep_decomp (env : Env) (opts : Options) :
    ∃ pre F, (revWaitStep env opts).1 = pre ++ F ∧
      (∀ c, Event.modify c ∉ pre) ∧ Event.unarchiveEv ∉ pre ∧
      (F = [] ∨ F = (finalizePhase env.modifyResources opts).1) := by
  rw [revWaitStep]
  exact waitStep_decomp_aux env opts _ _ (resetStep_decomp env opts)

theorem pkgWaitStep_decomp (env : Env) (opts : Options) :
    ∃ pre F, (pkgWaitStep env opts).1 = pre ++ F ∧
      (∀ c, Event.modify c ∉ pre) ∧ Event.unarchiveEv ∉ pre ∧
      (F = [] ∨ F = (finalizePhase env.modifyResources opts).1) := by
  rw [pkgWaitStep]
  exact waitStep_decomp_aux env opts _ _ (revWaitStep_decomp env opts)

theorem xrdWaitStep_decomp (env : Env) (opts : Options) :
    ∃ pre F, (xrdWaitStep env opts).1 = pre ++ F ∧
      (∀ c, Event.modify c ∉ pre) ∧ Event.unarchiveEv ∉ pre ∧
      (F = [] ∨ F = (finalizePhase env.modifyResources opts).1) := by
  rw [xrdWaitStep]
  exact waitStep_decomp_aux env opts _ _ (pkgWaitStep_decomp env opts)

theorem baseImportStep_decomp (env : Env) (opts : Options) :
    ∃ pre F, (baseImportStep env opts).1 = pre ++ F ∧
      (∀ c, Event.modify c ∉ pre) ∧ Event.unarchiveEv ∉ pre ∧
      (F = [] ∨ F = (finalizePhase env.modifyResources opts).1) := by
  rw [baseImportStep]
  have hnomod : ∀ c, Event.modify c ∉
      (importGroupsLoop env.importResources false baseResources).1 := by
    intro c hc
    obtain ⟨gr, hgr⟩ := importGroupsLoop_events _ _ _ _ hc
    exact absurd hgr (by simp)
  have hnoun : Event.unarchiveEv ∉
      (importGroupsLoop env.importResources false baseResources).1 := by
    intro hc
    obtain ⟨gr, hgr⟩ := importGroupsLoop_events _ _ _ _ hc
    exact absurd hgr (by simp)
  rcases wseq_fst (importGroupsLoop env.importResources false baseResources)
      (fun _ => xrdWaitStep env opts) with hcase | ⟨x, _, hcase⟩
  · exact ⟨(importGroupsLoop env.importResources false baseResources).1, [],
      by simp [hcase], hnomod, hnoun, Or.inl rfl⟩
  · obtain ⟨pre, F, htr, hpre, hpreu, hF⟩ := xrdWaitStep_decomp env opts
    refine ⟨(importGroupsLoop env.importResources false baseResources).1 ++ pre, F,
      ?_, ?_, ?_, hF⟩
    · rw [hcase]
      have : ((fun _ => xrdWaitStep env opts) x).1 = pre ++ F := htr
      rw [this, List.append_assoc]
    · intro c hc
      rcases List.mem_append.mp hc with hc | hc
      · exact hnomod c hc
      · exact hpre c hc
    · intro hc
      rcases List.mem_append.mp hc with hc | hc
      · exact hnoun hc
      · exact hpreu hc

theorem baseImportStep_no_unarchive (env : Env) (opts : Options) :
    Event.unarchiveEv ∉ (baseImportStep env opts).1 := by
  obtain ⟨pre, F, htr, _, hpreu, hF⟩ := baseImportStep_decomp env opts
  rw [htr]
  intro hmem
  rcases List.mem_append.mp hmem with hmem | hmem
  · exact hpreu hmem
  · cases hF with
    | inl h => rw [h] at hmem; simp at hmem
    | inr h =>
      rw [h] at hmem
      obtain ⟨c, hc⟩ := finalizePhase_events _ _ _ hmem
      exact absurd hc (by simp)

theorem Import_finalize_decomp (fsM : Bool) (env : Env) (opts : Options) :
    ∃ pre F, (Import fsM env opts).2.1 = pre ++ F ∧
      (∀ c, Event.modify c ∉ pre) ∧
      (F = [] ∨ F = (finalizePhase env.modifyResources opts).1) := by
  have hun : ∀ c, Event.modify c ∉ (unarchivePhase fsM env).1 := by
    intro c hc
    rw [unarchivePhase_fst] at hc
    cases fsM with
    | true => simp at hc
    | false =>
      simp only [Bool.false_eq_true, if_false, List.mem_singleton] at hc
      exact absurd hc (by simp)
  have hgoal : (Import fsM env opts).2.1 =
      (wseq (unarchivePhase fsM env) (fun _ => baseImportStep env opts)).1 := rfl
  rw [hgoal]
  rcases wseq_fst (unarchivePhase fsM env) (fun _ => baseImportStep env opts) with
    hcase | ⟨x, _, hcase⟩
  · exact ⟨(unarchivePhase fsM env).1, [], by simp [hcase], hun, Or.inl rfl⟩
  · obtain ⟨pre, F, htr, hpre, _, hF⟩ := baseImportStep_decomp env opts
    refine ⟨(unarchivePhase fsM env).1 ++ pre, F, ?_, ?_, hF⟩
    · rw [hcase]
      have : ((fun _ => baseImportStep env opts) x).1 = pre ++ F := htr
      rw [this, List.append_assoc]
    · intro c hc
      rcases List.mem_append.mp hc with hc | hc
      · exact hun c hc
      · exact hpre c hc

/-- The success-trace characterization of Import: extraction when needed,
the twelve base groups with pause off, the seven waits, one mapper reset,
the remaining groups with pause on, then finalize. -/
theorem Import_ok_trace (fsM : Bool) (env : Env) (opts : Options)
    (h : (Import fsM env opts).2.2 = Except.ok ()) :
    ∃ entries, env.readDir = Except.ok entries ∧
      (∀ d ∈ entries, d.name ≠ "export.yaml" → d.isDir = true) ∧
      (Import fsM env opts).2.1 =
        (if fsM then [] else [Event.unarchiveEv]) ++
          baseResources.map (fun g => Event.importGroup g false) ++
          allWaitSpecs.map (fun p => Event.waitFor p.1 p.2) ++
          [Event.mapperReset] ++ remainingEvents entries ++ finalizeEvents opts := by
  replace h : (wseq (unarchivePhase fsM env)
      (fun _ => baseImportStep env opts)).2 = Except.ok () := h
  obtain ⟨⟨⟩, hx1, h, htr1⟩ := wseq_snd_ok _ _ _ h
  replace h : (wseq (importGroupsLoop env.importResources false baseResources)
      (fun _ => xrdWaitStep env opts)).2 = Except.ok () := h
  obtain ⟨x2, hx2, h, htr2⟩ := wseq_snd_ok _ _ _ h
  replace h : (wseq (waitPhase env.waitEnvs [(xrdGroupKind, ["Established"])])
      (fun _ => pkgWaitStep env opts)).2 = Except.ok () := h
  obtain ⟨⟨⟩, hx3, h, htr3⟩ := wseq_snd_ok _ _ _ h
  replace h : (wseq (waitPhase env.waitEnvs
      (packageGroupKinds.map (fun gk => (gk, ["Installed", "Healthy"]))))
      (fun _ => revWaitStep env opts)).2 = Except.ok () := h
  obtain ⟨⟨⟩, hx4, h, htr4⟩ := wseq_snd_ok _ _ _ h
  replace h : (wseq (waitPhase env.waitEnvs
      (revisionGroupKinds.map (fun gk => (gk, ["Healthy"]))))
      (fun _ => resetStep env opts)).2 = Except.ok () := h
  obtain ⟨⟨⟩, hx5, h, htr5⟩ := wseq_snd_ok _ _ _ h
  replace h : (wseq (([Event.mapperReset], Except.ok ()) :
      List Event × Except ImpError Unit)
      (fun _ => listStep env opts)).2 = Except.ok () := h
  obtain ⟨⟨⟩, hx6, h, htr6⟩ := wseq_snd_ok _ _ _ h
  replace h : (wseq (readDirPhase env)
      (fun grs => remainingStep env opts grs)).2 = Except.ok () := h
  obtain ⟨grs, hx7, h, htr7⟩ := wseq_snd_ok _ _ _ h
  replace h : (wseq (importRemainingLoop env.importResources grs)
      (fun _ => finalizePhase env.modifyResources opts)).2 = Except.ok () := h
  obtain ⟨x8, hx8, h, htr8⟩ := wseq_snd_ok _ _ _ h
  have hrd := readDirPhase_ok env grs hx7
  have hbase := importGroupsLoop_ok env.importResources false baseResources _ x2
    (by rw [← hx2])
  have hxrd := waitPhase_ok env.waitEnvs [(xrdGroupKind, ["Established"])] _
    (by rw [← hx3])
  have hpkg := waitPhase_ok env.waitEnvs
    (packageGroupKinds.map (fun gk => (gk, ["Installed", "Healthy"]))) _ (by rw [← hx4])
  have hrev := waitPhase_ok env.waitEnvs
    (revisionGroupKinds.map (fun gk => (gk, ["Healthy"]))) _ (by rw [← hx5])
  obtain ⟨hrem, hdirs⟩ := importRemainingLoop_ok env.importResources grs _ x8
    (by rw [← hx8])
  have hfin := finalizePhase_ok env.modifyResources opts _ (by rw [← h])
  refine ⟨grs, hrd, hdirs, ?_⟩
  replace htr1 : (Import fsM env opts).2.1 =
    (unarchivePhase fsM env).1 ++ (baseImportStep env opts).1 := htr1
  replace htr2 : (baseImportStep env opts).1 =
    (importGroupsLoop env.importResources false baseResources).1 ++
      (xrdWaitStep env opts).1 := htr2
  replace htr3 : (xrdWaitStep env opts).1 =
    (waitPhase env.waitEnvs [(xrdGroupKind, ["Established"])]).1 ++
      (pkgWaitStep env opts).1 := htr3
  replace htr4 : (pkgWaitStep env opts).1 =
    (waitPhase env.waitEnvs
      (packageGroupKinds.map (fun gk => (gk, ["Installed", "Healthy"])))).1 ++
      (revWaitStep env opts).1 := htr4
  replace htr5 : (revWaitStep env opts).1 =
    (waitPhase env.waitEnvs (revisionGroupKinds.map (fun gk => (gk, ["Healthy"])))).1 ++
      (resetStep env opts).1 := htr5
  replace htr6 : (resetStep env opts).1 =
    [Event.mapperReset] ++ (listStep env opts).1 := htr6
  replace htr7 : (listStep env opts).1 =
    (readDirPhase env).1 ++ (remainingStep env opts grs).1 := htr7
  replace htr8 : (remainingStep env opts grs).1 =
    (importRemainingLoop env.importResources grs).1 ++
      (finalizePhase env.modifyResources opts).1 := htr8
  rw [htr1, htr2, htr3, htr4, htr5, htr6, htr7, htr8, unarchivePhase_fst,
    readDirPhase_fst, hbase, hxrd, hpkg, hrev, hrem, hfin]
  simp [allWaitSpecs, List.map_append, List.append_assoc]

theorem PreflightChecks_fst (fsM : Bool) (env : Env) :
    (PreflightChecks fsM env).2.1 =
      match env.collectInfo with
      | Except.error _ => []
      | Except.ok _ => if fsM then [] else [Event.unarchiveEv] := by
  rw [PreflightChecks]
  cases hci : env.collectInfo with
  | error e => rfl
  | ok observed =>
    cases hur : (if fsM then Except.ok () else unarchive env.unarchiveEnv) with
    | error e2 => simp [hur]
    | ok u =>
      cases hrf : env.readExportFile with
      | error e3 => simp [hur, hrf]
      | ok b =>
        cases hpm : env.parseMeta b with
        | error e4 => simp [hur, hrf, hpm]
        | ok em => simp [hur, hrf, hpm]

theorem PreflightChecks_fstBool (fsM : Bool) (env : Env) :
    (PreflightChecks fsM env).1 =
      match env.collectInfo with
      | Except.error _ => fsM
      | Except.ok _ => true := by
  rw [PreflightChecks]
  cases hci : env.collectInfo with
  | error e => rfl
  | ok observed =>
    cases hur : (if fsM then Except.ok () else unarchive env.unarchiveEnv) with
    | error e2 => simp [hur]
    | ok u =>
      cases hrf : env.readExportFile with
      | error e3 => simp [hur, hrf]
      | ok b =>
        cases hpm : env.parseMeta b with
        | error e4 => simp [hur, hrf, hpm]
        | ok em => simp [hur, hrf, hpm]

theorem Import_unarchive_count (fsM : Bool) (env : Env) (opts : Options) :
    List.count Event.unarchiveEv (Import fsM env opts).2.1 =
      if fsM then 0 else 1 := by
  have hphase : List.count Event.unarchiveEv (unarchivePhase fsM env).1 =
      if fsM then 0 else 1 := by
    rw [unarchivePhase_fst]
    cases fsM <;> rfl
  have hgoal : (Import fsM env opts).2.1 =
      (wseq (unarchivePhase fsM env) (fun _ => baseImportStep env opts)).1 := rfl
  rw [hgoal]
  rcases wseq_fst (unarchivePhase fsM env) (fun _ => baseImportStep env opts) with
    hcase | ⟨x, _, hcase⟩
  · rw [hcase, hphase]
  · rw [hcase]
    have hnext : ((fun _ => baseImportStep env opts) x).1 = (baseImportStep env opts).1 :=
      rfl
    rw [hnext, List.count_append, hphase,
      List.count_eq_zero.mpr (baseImportStep_no_unarchive env opts)]
    simp

/-! ## Claim theorems about the Import phase controller -/

/-- C2: in every successful run of Import the trace is exactly: extraction
(when not already done), each fixed base group imported with pause false,
then the seven condition waits, then exactly one mapper reset, then every
remaining root group (all of which are directories except `export.yaml`)
imported with pause true, then finalize. -/
theorem Import_phase_order (fsM : Bool) (env : Env) (opts : Options)
    (h : (Import fsM env opts).2.2 = Except.ok ()) :
    ∃ entries, env.readDir = Except.ok entries ∧
      (∀ d ∈ entries, d.name ≠ "export.yaml" → d.isDir = true) ∧
      (Import fsM env opts).2.1 =
        (if fsM then [] else [Event.unarchiveEv]) ++
          baseResources.map (fun g => Event.importGroup g false) ++
          allWaitSpecs.map (fun p => Event.waitFor p.1 p.2) ++
          [Event.mapperReset] ++ remainingEvents entries ++ finalizeEvents opts ∧
      List.count Event.mapperReset (Import fsM env opts).2.1 = 1 := by
  obtain ⟨entries, hrd, hdirs, htr⟩ := Import_ok_trace fsM env opts h
  refine ⟨entries, hrd, hdirs, htr, ?_⟩
  rw [htr]
  have hmap0 : ∀ (l : List Event), (∀ e ∈ l, e ≠ Event.mapperReset) →
      List.count Event.mapperReset l = 0 := by
    intro l hl
    rw [List.count_eq_zero]
    intro hmem
    exact absurd rfl (hl Event.mapperReset hmem)
  have h1 : List.count Event.mapperReset (if fsM then ([] : List Event)
      else [Event.unarchiveEv]) = 0 := by
    cases fsM <;> rfl
  have h2 : List.count Event.mapperReset
      (baseResources.map (fun g => Event.importGroup g false)) = 0 := by
    apply hmap0
    intro e he
    obtain ⟨g, _, rfl⟩ := List.mem_map.mp he
    simp
  have h3 : List.count Event.mapperReset
      (allWaitSpecs.map (fun p => Event.waitFor p.1 p.2)) = 0 := by
    apply hmap0
    intro e he
    obtain ⟨p, _, rfl⟩ := List.mem_map.mp he
    simp
  have h4 : List.count Event.mapperReset (remainingEvents entries) = 0 := by
    apply hmap0
    intro e he
    rw [remainingEvents] at he
    obtain ⟨d, _, rfl⟩ := List.mem_map.mp he
    simp
  have h5 : List.count Event.mapperReset (finalizeEvents opts) = 0 := by
    apply hmap0
    intro e he
    rw [finalizeEvents] at he
    rcases List.mem_append.mp he with he | he
    · simp only [List.mem_cons, List.not_mem_nil, or_false] at he
      rcases he with he | he <;> simp [he]
    · by_cases hopt : opts.UnpauseAfterImport = true
      · rw [if_pos hopt] at he
        simp only [List.mem_singleton] at he
        simp [he]
      · rw [if_neg hopt] at he
        simp at he
  simp [List.count_append, h1, h2, h3, h4, h5]

/-- A root listing with the metadata record, one base group and one
remaining group. -/
def happyEntries : List DirEntry :=
  [{ name := "export.yaml", isDir := false },
   { name := "namespaces", isDir := true },
   { name := "widgets.example.io", isDir := true }]

/-- An environment in which every collaborator call of Import succeeds. -/
def happyEnv : Env :=
  { unarchiveEnv :=
      { openOk := true
        gzipOk := true
        entries := [TarEntry.dir "namespaces" true,
          TarEntry.file "namespaces/ns1.yaml" true true]
        cancelAt := none }
    collectInfo := Except.ok sampleObservedAB
    readExportFile := Except.ok "export-bytes"
    parseMeta := fun _ => Except.ok sampleMetaAB
    importResources := fun _ _ => Except.ok 1
    waitEnvs := fun _ _ =>
      { mapping := Except.ok (), polls := fun _ => PollObs.listed [], maxPolls := 1,
        cancelAt := none }
    readDir := Except.ok happyEntries
    modifyResources := fun _ => Except.ok 0 }

/-- Options requesting the managed-resource unpause. -/
def happyOptions : Options :=
  { InputArchive := "xp-state.tar.gz", UnpauseAfterImport := true }

/-- Witness for C2 on a concrete fully-successful run. -/
theorem Import_phase_order_witness :
    ∃ entries, happyEnv.readDir = Except.ok entries ∧
      (∀ d ∈ entries, d.name ≠ "export.yaml" → d.isDir = true) ∧
      (Import false happyEnv happyOptions).2.1 =
        (if false then [] else [Event.unarchiveEv]) ++
          baseResources.map (fun g => Event.importGroup g false) ++
          allWaitSpecs.map (fun p => Event.waitFor p.1 p.2) ++
          [Event.mapperReset] ++ remainingEvents entries ++ finalizeEvents happyOptions ∧
      List.count Event.mapperReset (Import false happyEnv happyOptions).2.1 = 1 :=
  Import_phase_order false happyEnv happyOptions rfl

/-- C1: in any run of Import, the claim-category unpause can only occur
strictly after the composite-category unpause; the managed category is only
ever touched when UnpauseAfterImport is set; and in a completed run the
managed category is unpaused exactly when UnpauseAfterImport is set. -/
theorem Import_finalize_order (fsM : Bool) (env : Env) (opts : Options) :
    (Event.modify "claim" ∈ (Import fsM env opts).2.1 →
      ∃ pre mid post, (Import fsM env opts).2.1 =
        pre ++ [Event.modify "composite"] ++ mid ++ [Event.modify "claim"] ++ post) ∧
    (Event.modify "managed" ∈ (Import fsM env opts).2.1 →
      opts.UnpauseAfterImport = true) ∧
    ((Import fsM env opts).2.2 = Except.ok () →
      (Event.modify "managed" ∈ (Import fsM env opts).2.1 ↔
        opts.UnpauseAfterImport = true)) := by
  obtain ⟨pre, F, htr, hpre, hF⟩ := Import_finalize_decomp fsM env opts
  have hshape := finalizePhase_shape env.modifyResources opts
    (finalizePhase env.modifyResources opts).1
    (finalizePhase env.modifyResources opts).2 rfl
  have hmanaged : Event.modify "managed" ∈ (Import fsM env opts).2.1 →
      opts.UnpauseAfterImport = true := by
    intro hmem
    rw [htr] at hmem
    rcases List.mem_append.mp hmem with hmem | hmem
    · exact absurd hmem (hpre "managed")
    · cases hF with
      | inl h0 => rw [h0] at hmem; simp at hmem
      | inr h0 =>
        rw [h0] at hmem
        rcases hshape with hs | hs | ⟨hs, hopt⟩
        · rw [hs] at hmem; simp at hmem
        · rw [hs] at hmem; simp at hmem
        · exact hopt
  refine ⟨?_, hmanaged, ?_⟩
  · intro hmem
    rw [htr] at hmem
    rcases List.mem_append.mp hmem with hmem | hmem
    · exact absurd hmem (hpre "claim")
    · cases hF with
      | inl h0 => rw [h0] at hmem; simp at hmem
      | inr h0 =>
        rw [h0] at hmem
        rcases hshape with hs | hs | ⟨hs, _⟩
        · rw [hs] at hmem; simp at hmem
        · refine ⟨pre, [], [], ?_⟩
          rw [htr, h0, hs]
          simp
        · refine ⟨pre, [], [Event.modify "managed"], ?_⟩
          rw [htr, h0, hs]
          simp
  · intro hok
    constructor
    · exact hmanaged
    · intro hopt
      obtain ⟨entries, _, _, htr2⟩ := Import_ok_trace fsM env opts hok
      rw [htr2]
      have : Event.modify "managed" ∈ finalizeEvents opts := by
        rw [finalizeEvents, if_pos hopt]
        simp
      simp only [List.append_assoc, List.mem_append]
      exact Or.inr (Or.inr (Or.inr (Or.inr (Or.inr this))))

/-- Witness for C1 on a concrete completed run with the unpause option on. -/
theorem Import_finalize_order_witness :
    ∃ pre mid post, (Import false happyEnv happyOptions).2.1 =
      pre ++ [Event.modify "composite"] ++ mid ++ [Event.modify "claim"] ++ post :=
  (Import_finalize_order false happyEnv happyOptions).1 (by decide)

/-- C9: Import never extracts when the store is already materialized, and
extracts exactly once otherwise; PreflightChecks likewise extracts at most
once and never when the store is already materialized; and across a
PreflightChecks-then-Import run the archive is extracted at most once in
total, because Import reuses the store PreflightChecks materialized. -/
theorem extraction_at_most_once (env : Env) (opts : Options) :
    (∀ fsM, List.count Event.unarchiveEv (Import fsM env opts).2.1 =
      if fsM then 0 else 1) ∧
    (List.count Event.unarchiveEv (PreflightChecks true env).2.1 = 0) ∧
    (∀ fsM, List.count Event.unarchiveEv (PreflightChecks fsM env).2.1 ≤ 1) ∧
    List.count Event.unarchiveEv
      ((PreflightChecks false env).2.1 ++
        (Import (PreflightChecks false env).1 env opts).2.1) ≤ 1 := by
  refine ⟨fun fsM => Import_unarchive_count fsM env opts, ?_, ?_, ?_⟩
  · rw [PreflightChecks_fst]
    cases env.collectInfo <;> rfl
  · intro fsM
    rw [PreflightChecks_fst]
    cases env.collectInfo with
    | error e => simp
    | ok observed => cases fsM <;> simp
  · rw [List.count_append, PreflightChecks_fst, PreflightChecks_fstBool]
    cases hci : env.collectInfo with
    | error e =>
      rw [Import_unarchive_count]
      simp
    | ok observed =>
      rw [Import_unarchive_count]
      simp

end Importer
